import Mathlib

/-!
Verification development for the incremental-response orchestration core of the
Intelligent AI Network Diagnostic Platform (frontend).

Strings of the TypeScript source are modelled as `List Char` (`Str`), so that
concatenation and substring facts can be proved by structural induction.
JavaScript string literals are written `"...".toList`.
-/

set_option maxRecDepth 4000

abbrev Str := List Char

/-- JS whitespace characters relevant to `String.prototype.trim` for the data
handled by this frontend (space, tab, LF, CR, vertical tab, form feed). -/
def isWs (c : Char) : Bool :=
  c = ' ' || c = '\t' || c = '\n' || c = '\r' || c = '\x0b' || c = '\x0c'

/-- `s.trim()` of JavaScript: strip whitespace from both ends. -/
def trimList (s : Str) : Str :=
  ((s.dropWhile isWs).reverse.dropWhile isWs).reverse

/-- `pat` is a leading segment of `s` (JS `s.startsWith(pat)`). -/
def leadsWith : Str → Str → Bool
  | [], _ => true
  | _ :: _, [] => false
  | p :: ps, c :: cs => p = c && leadsWith ps cs

/-- `pat` occurs contiguously inside `s` (JS `s.includes(pat)`). -/
def hasSub (pat : Str) : Str → Bool
  | [] => leadsWith pat []
  | c :: cs => leadsWith pat (c :: cs) || hasSub pat cs

/-- The stream-terminator token `[DONE]`. -/
def doneMark : Str := "[DONE]".toList

/-- The error-event text marker `错误:` checked by the stream handler
(`chunk.startsWith('错误:')` in `_handleStreamResponse`). -/
def errMark : Str := "错误:".toList

/-- The thinking-event marker `🤔思考: ` produced by the decoder and checked by
the stream handler.  In UTF-16 this marker is 6 code units (the emoji is a
surrogate pair), so the source's `chunk.substring(6)` drops exactly these
5 code points; in the `List Char` model that is `drop thinkMark.length`. -/
def thinkMark : Str := "🤔思考: ".toList

/-- The SSE framing marker `data:` stripped by the decoder. -/
def dataMark : Str := "data:".toList

/-- The decoder's subdivision of a long payload: chunks of `k` characters taken
left to right (`content.substring(i, i + chunkSize)` for `i = 0, k, 2k, …` in
`processLine`, MainLayout.vue). -/
def subdivide (k : Nat) (cs : Str) : List Str :=
  if cs = [] then []
  else if k = 0 then [cs]
  else cs.take k :: subdivide k (cs.drop k)
termination_by cs.length
decreasing_by
  simp only [List.length_drop]
  rename_i h hk
  have h1 : 0 < cs.length := List.length_pos.mpr h
  omega

/-- Concatenation of a list of strings. -/
def joinStr (l : List Str) : Str := l.foldr (· ++ ·) []

theorem joinStr_nil : joinStr [] = [] := rfl

theorem joinStr_cons (s : Str) (l : List Str) :
    joinStr (s :: l) = s ++ joinStr l := rfl

theorem joinStr_append (l₁ l₂ : List Str) :
    joinStr (l₁ ++ l₂) = joinStr l₁ ++ joinStr l₂ := by
  induction l₁ with
  | nil => rfl
  | cons s l ih => simp [joinStr_cons, ih, List.append_assoc]

/-- The decoder's subdivision never reorders, drops, or duplicates characters:
joining the emitted chunks restores the original payload. -/
theorem joinStr_subdivide (k : Nat) (cs : Str) :
    joinStr (subdivide k cs) = cs := by
  induction cs using subdivide.induct k with
  | case1 => simp [subdivide, joinStr]
  | case2 cs h hk =>
    rw [subdivide]
    simp [h, hk, joinStr]
  | case3 cs h hk ih =>
    rw [subdivide]
    simp only [if_neg h, if_neg hk, joinStr_cons, ih]
    exact List.take_append_drop k cs

/-- Every chunk emitted by `subdivide` is a contiguous segment of the input. -/
theorem subdivide_mem_segment (k : Nat) (cs : Str) :
    ∀ e ∈ subdivide k cs, ∃ pre post, pre ++ (e ++ post) = cs := by
  induction cs using subdivide.induct k with
  | case1 => simp [subdivide]
  | case2 cs h hk =>
    rw [subdivide]
    simp only [if_neg h, if_pos hk, List.mem_singleton]
    rintro e rfl
    exact ⟨[], [], by simp⟩
  | case3 cs h hk ih =>
    rw [subdivide]
    simp only [if_neg h, if_neg hk, List.mem_cons]
    rintro e (rfl | he)
    · exact ⟨[], cs.drop k, List.take_append_drop k cs⟩
    · obtain ⟨pre, post, hp⟩ := ih e he
      exact ⟨cs.take k ++ pre, post, by
        rw [List.append_assoc, hp]
        exact List.take_append_drop k cs⟩

theorem leadsWith_append (pat s t : Str) (h : leadsWith pat s = true) :
    leadsWith pat (s ++ t) = true := by
  induction pat generalizing s with
  | nil => rfl
  | cons p ps ih =>
    cases s with
    | nil => simp [leadsWith] at h
    | cons c cs =>
      simp only [leadsWith, Bool.and_eq_true, decide_eq_true_eq] at h ⊢
      exact ⟨h.1, ih cs h.2⟩

theorem hasSub_append_right (pat a b : Str) (h : hasSub pat b = true) :
    hasSub pat (a ++ b) = true := by
  induction a with
  | nil => simpa using h
  | cons c cs ih =>
    simp only [List.cons_append, hasSub, Bool.or_eq_true]
    exact Or.inr ih

theorem leadsWith_hasSub (pat s : Str) (h : leadsWith pat s = true) :
    hasSub pat s = true := by
  cases s with
  | nil => simpa [hasSub] using h
  | cons c cs => simp [hasSub, h]

theorem hasSub_nil_pat (s : Str) : hasSub [] s = true := by
  cases s <;> simp [hasSub, leadsWith]

/-- If a string occurs contiguously in a segment of `cs`, it occurs in `cs`. -/
theorem hasSub_of_segment (pat e pre post cs : Str)
    (hseg : pre ++ (e ++ post) = cs) (h : hasSub pat e = true) :
    hasSub pat cs = true := by
  subst hseg
  apply hasSub_append_right
  induction e with
  | nil =>
    cases pat with
    | nil => simpa using hasSub_nil_pat post
    | cons p ps => simp [hasSub, leadsWith] at h
  | cons c cs' ih =>
    simp only [hasSub, Bool.or_eq_true] at h
    rcases h with h | h
    · simp only [List.cons_append, hasSub, Bool.or_eq_true]
      exact Or.inl (leadsWith_append _ _ _ h)
    · simp only [List.cons_append, hasSub, Bool.or_eq_true]
      exact Or.inr (ih h)

/-- A leading marker on a segment of `cs` occurs contiguously in `cs`. -/
theorem leadsWith_segment_hasSub (pat e pre post cs : Str)
    (hseg : pre ++ (e ++ post) = cs) (h : leadsWith pat e = true) :
    hasSub pat cs = true :=
  hasSub_of_segment pat e pre post cs hseg (leadsWith_hasSub pat e h)

/-! ## Data model (frontend/src/stores/ai-assistant/types/index.ts) -/

/-- The `ThinkingContent` record of an assistant message. -/
structure ThinkingContent where
  content : Str
  isComplete : Bool
  timestamp : Int
deriving DecidableEq

/-- A `ChatMessage` of the conversation store.  `timestamp` is set at every
creation site (`Date.now()`), so it is modelled as always present. -/
structure ChatMessage where
  id : Str
  role : Str
  content : Str
  timestamp : Int
  thinking : Option ThinkingContent := none
deriving DecidableEq

/-! ## Chunk decoder (MainLayout.vue, `processLine` inside `sendMessageStream`) -/

/-- A typed `StreamEvent` envelope recognised by the decoder
(`data.type`/`data.data` in `processLine`). -/
inductive StreamEvent where
  | content (s : Str)
  | thinking (s : Str)
  | error (s : Str)
  | done
deriving DecidableEq

/-- The chunks the decoder enqueues for one typed envelope event
(MainLayout.vue lines 630-660): a non-empty `thinking` payload becomes one
chunk `🤔思考: ` + text; a non-empty `content` payload longer than 20
characters is subdivided into chunks of `min 20 ⌈len/3⌉` characters, shorter
payloads are enqueued whole; a non-empty `error` payload becomes one chunk
`错误: ` + text; `done`/`finish` events enqueue nothing.  Empty payloads fail
the JS truthiness guards and enqueue nothing. -/
def emitEvent : StreamEvent → List Str
  | .content s =>
      if s = [] then []
      else if 20 < s.length then subdivide (min 20 ((s.length + 2) / 3)) s
      else [s]
  | .thinking s => if s = [] then [] else [thinkMark ++ s]
  | .error s => if s = [] then [] else ["错误: ".toList ++ s]
  | .done => []

/-- The ordered chunk sequence the decoder enqueues for a list of typed
envelope events. -/
def decodeEvents (evs : List StreamEvent) : List Str := evs.flatMap emitEvent

theorem trimList_length_le (s : Str) : (trimList s).length ≤ s.length := by
  unfold trimList
  simp only [List.length_reverse]
  calc (List.dropWhile isWs (s.dropWhile isWs).reverse).length
      ≤ (s.dropWhile isWs).reverse.length := (List.dropWhile_sublist isWs).length_le
    _ = (s.dropWhile isWs).length := List.length_reverse _
    _ ≤ s.length := (List.dropWhile_sublist isWs).length_le

theorem leadsWith_length (pat s : Str) (h : leadsWith pat s = true) :
    pat.length ≤ s.length := by
  induction pat generalizing s with
  | nil => simp
  | cons p ps ih =>
    cases s with
    | nil => simp [leadsWith] at h
    | cons c cs =>
      simp only [leadsWith, Bool.and_eq_true] at h
      simpa using ih cs h.2

/-- Strips every leading `data:` marker, trimming after each strip
(the `while(contentLine.startsWith('data:'))` loop in `processLine`). -/
def stripDataMarks (s : Str) : Str :=
  if h : leadsWith dataMark s = true then stripDataMarks (trimList (s.drop 5)) else s
termination_by s.length
decreasing_by
  have h5 : 5 ≤ s.length := by
    have := leadsWith_length dataMark s h
    simpa [dataMark] using this
  have hlen : (trimList (s.drop 5)).length ≤ s.length - 5 := by
    have h1 := trimList_length_le (s.drop 5)
    simpa using h1
  omega

/-- The decoder's handling of a line that does not begin with `{` or `[`
(so the structured-JSON branch of `processLine` is skipped): drop the line if
it is a terminator line, strip `data:` markers, drop empty or
terminator-containing remainders, and enqueue the rest as plain text,
subdivided into chunks of `min 30 ⌈len/4⌉` characters when longer than 30
(MainLayout.vue lines 608-727, non-JSON path). -/
def processLineNonJson (line : Str) : List Str :=
  if line = "data: [DONE]".toList ∨ line = doneMark then []
  else
    let cl := stripDataMarks line
    if cl = [] then []
    else if hasSub doneMark cl then []
    else if 30 < cl.length then subdivide (min 30 ((cl.length + 3) / 4)) cl
    else [cl]

/-! ## Turn state machine and render driver
(frontend/src/stores/ai-assistant/actions/messaging.ts) -/

/-- The per-character render driver `_addContentCharByChar`: characters of the
chunk are appended to the target message strictly in order, one at a time. -/
def addContentCharByChar (msg : ChatMessage) (chunk : Str) : ChatMessage :=
  chunk.foldl (fun m c => { m with content := m.content ++ [c] }) msg

theorem addContentCharByChar_content (msg : ChatMessage) (chunk : Str) :
    addContentCharByChar msg chunk =
      { msg with content := msg.content ++ chunk } := by
  induction chunk generalizing msg with
  | nil => simp [addContentCharByChar]
  | cons c cs ih =>
    simp only [addContentCharByChar, List.foldl_cons] at *
    rw [ih]
    simp

/-- Mutable state of `_handleStreamResponse` for one turn.

`msg` is the local `assistantMessage` object.  Every applied chunk re-syncs the
conversation slot with a shallow copy `{ ...assistantMessage }`; the copy
shares the `thinking` sub-object by reference, so at every point the slot's
message equals `msg` up to the pending `thinking` mutations, and at the end of
the turn it equals `msg` exactly.  `touched` records whether such a copy has
replaced the original object in `state.chatMessages` (after which
`indexOf(assistantMessage)` in `_handleStreamError` no longer finds it). -/
structure RunState where
  msg : ChatMessage
  thinkingBuf : Str
  contentReceived : Bool
  touched : Bool
deriving DecidableEq

/-- One iteration of the read loop of `_handleStreamResponse` applied to a
decoded chunk (messaging.ts lines 193-258): skip empty chunks and chunks
containing `[DONE]`; append `\n` + chunk to the message for `错误:` chunks;
accumulate `🤔思考: ` chunks into the thinking sub-record; apply anything else
through the per-character render driver. -/
def processChunk (now : Int) (st : RunState) (chunk : Str) : RunState :=
  if chunk = [] then st
  else if hasSub doneMark chunk then st
  else if leadsWith errMark chunk then
    { st with
      msg := { st.msg with content := st.msg.content ++ ('\n' :: chunk) }
      contentReceived := true
      touched := true }
  else if leadsWith thinkMark chunk then
    let buf := st.thinkingBuf ++ chunk.drop thinkMark.length
    { st with
      thinkingBuf := buf
      msg := { st.msg with
        thinking := some (match st.msg.thinking with
          | none => ⟨buf, false, now⟩
          | some th => { th with content := buf }) }
      touched := true }
  else
    { st with
      msg := addContentCharByChar st.msg chunk
      contentReceived := true
      touched := true }

/-- End-of-loop completion of the thinking sub-record
(`if (thinkingContent && assistantMessage.thinking)` in
`_handleStreamResponse`): mutating `isComplete` on the shared thinking object
is visible through every synced copy. -/
def finalizeThinking (st : RunState) : RunState :=
  if st.thinkingBuf ≠ [] ∧ st.msg.thinking.isSome then
    { st with msg := { st.msg with
        thinking := st.msg.thinking.map (fun th => { th with isComplete := true }) } }
  else st

/-- The `_handleStreamError` path at end of turn.  The conversation list at
that moment is `prior ++ [slot]` where `slot` holds the latest synced copy of
the pending message.  `state.chatMessages.indexOf(assistantMessage)` compares
object identity: it finds the entry only when no chunk was applied (`touched =
false`, the slot still holds the original object) and only then removes it;
the error message is always appended. -/
def handleStreamErrorRun (prior : List ChatMessage) (st : RunState)
    (errId : Str) (now : Int) (emsg : Str) : List ChatMessage :=
  (if st.touched then prior ++ [st.msg] else prior) ++
    [{ id := errId, role := "assistant".toList,
       content := "发生错误: ".toList ++ emsg, timestamp := now }]

/-- One complete streaming turn of `_handleStreamResponse` over an already
decoded chunk sequence: fold the read loop, complete the thinking sub-record,
then either keep the pending message (some non-whitespace content was
received) or run `_handleStreamError` with `未接收到有效内容`. -/
def runTurn (prior : List ChatMessage) (pending : ChatMessage)
    (chunks : List Str) (errId : Str) (now : Int) : List ChatMessage :=
  let st := finalizeThinking (chunks.foldl (processChunk now) ⟨pending, [], false, false⟩)
  if !st.contentReceived || trimList st.msg.content = [] then
    handleStreamErrorRun prior st errId now "未接收到有效内容".toList
  else
    prior ++ [st.msg]

/-! ## The send guard (messaging.ts `sendMessage`) and the store's state flags -/

/-- The store state flags consulted by `sendMessage`
(frontend/src/stores/ai-assistant/state.ts). -/
structure AIFlags where
  isModelConnected : Bool
  isAIResponding : Bool
  isStreamingContent : Bool
deriving DecidableEq

/-- The synchronous rejection guard at the top of `sendMessage`
(messaging.ts lines 12-20): a send is rejected iff the text is
empty/whitespace, the model is not connected, or `isAIResponding` is set.
`isStreamingContent` is not consulted. -/
def sendMessageRejected (st : AIFlags) (content : Str) : Bool :=
  trimList content = [] || !st.isModelConnected || st.isAIResponding

/-- The flag state during the Streaming/Thinking phases of a streaming turn:
`sendMessageStream` sets `isAIResponding := false` and
`isStreamingContent := true` as soon as the stream response arrives
(messaging.ts lines 128-129), before any chunk is read. -/
def streamingPhaseFlags : AIFlags :=
  { isModelConnected := true, isAIResponding := false, isStreamingContent := true }

/-- The flag state during the Awaiting phase: `sendMessage` sets
`isAIResponding := true` before the request (messaging.ts line 47). -/
def awaitingPhaseFlags : AIFlags :=
  { isModelConnected := true, isAIResponding := true, isStreamingContent := false }

/-! ## Fold lemmas for the read loop -/

theorem processChunk_plain (now : Int) (st : RunState) (chunk : Str)
    (hne : chunk ≠ [])
    (hd : hasSub doneMark chunk = false)
    (he : leadsWith errMark chunk = false)
    (ht : leadsWith thinkMark chunk = false) :
    processChunk now st chunk =
      { st with
        msg := { st.msg with content := st.msg.content ++ chunk }
        contentReceived := true
        touched := true } := by
  unfold processChunk
  rw [if_neg hne]
  simp [hd, he, ht, addContentCharByChar_content]

/-- Folding the read loop over plain content chunks appends their
concatenation to the message, leaving the thinking sub-record untouched. -/
theorem foldl_processChunk_plain (now : Int) (chunks : List Str) (st : RunState)
    (h : ∀ e ∈ chunks, hasSub doneMark e = false ∧ leadsWith errMark e = false ∧
      leadsWith thinkMark e = false) :
    chunks.foldl (processChunk now) st =
      { st with
        msg := { st.msg with content := st.msg.content ++ joinStr chunks }
        contentReceived := st.contentReceived || chunks.any (fun e => !e.isEmpty)
        touched := st.touched || chunks.any (fun e => !e.isEmpty) } := by
  induction chunks generalizing st with
  | nil => simp [joinStr]
  | cons e rest ih =>
    obtain ⟨hd, he, ht⟩ := h e (List.mem_cons_self e rest)
    have hrest : ∀ x ∈ rest, hasSub doneMark x = false ∧ leadsWith errMark x = false ∧
        leadsWith thinkMark x = false := fun x hx => h x (List.mem_cons_of_mem e hx)
    by_cases h0 : e = []
    · subst h0
      rw [List.foldl_cons]
      have hpc : processChunk now st [] = st := by unfold processChunk; simp
      rw [hpc, ih st hrest]
      simp [joinStr_cons]
    · rw [List.foldl_cons, processChunk_plain now st e h0 hd he ht, ih _ hrest]
      simp [joinStr_cons, List.any_cons, List.isEmpty_iff, h0, List.append_assoc]

/-- Chunks emitted for a content payload are contiguous segments of the
payload, so a marker absent from the payload is absent from every chunk. -/
theorem emitContent_marks (pat c : Str) (hc : hasSub pat c = false) :
    ∀ e ∈ emitEvent (.content c), hasSub pat e = false ∧ leadsWith pat e = false := by
  intro e he
  simp only [emitEvent] at he
  by_cases h0 : c = []
  · simp [h0] at he
  · rw [if_neg h0] at he
    have hseg : ∃ pre post, pre ++ (e ++ post) = c := by
      by_cases h20 : 20 < c.length
      · rw [if_pos h20] at he
        exact subdivide_mem_segment _ c e he
      · rw [if_neg h20] at he
        simp only [List.mem_singleton] at he
        subst he
        exact ⟨[], [], by simp⟩
    obtain ⟨pre, post, hp⟩ := hseg
    refine ⟨?_, ?_⟩
    · by_contra hx
      rw [Bool.not_eq_false] at hx
      rw [hasSub_of_segment pat e pre post c hp hx] at hc
      cases hc
    · by_contra hx
      rw [Bool.not_eq_false] at hx
      rw [leadsWith_segment_hasSub pat e pre post c hp hx] at hc
      cases hc

/-- The decoder's internal subdivision of one content payload preserves exact
concatenation order. -/
theorem joinStr_emitContent (c : Str) : joinStr (emitEvent (.content c)) = c := by
  simp only [emitEvent]
  by_cases h0 : c = []
  · simp [h0, joinStr]
  · rw [if_neg h0]
    by_cases h20 : 20 < c.length
    · rw [if_pos h20]
      exact joinStr_subdivide _ c
    · rw [if_neg h20]
      simp [joinStr]

/-- Decoding a list of content payloads preserves exact concatenation order. -/
theorem joinStr_decodeContents (cs : List Str) :
    joinStr (decodeEvents (cs.map StreamEvent.content)) = joinStr cs := by
  induction cs with
  | nil => rfl
  | cons c rest ih =>
    simp only [List.map_cons, decodeEvents, List.flatMap_cons, joinStr_append]
    rw [joinStr_emitContent]
    simp only [decodeEvents] at ih
    rw [ih, joinStr_cons]

theorem any_nonempty_of_joinStr (l : List Str) (h : joinStr l ≠ []) :
    l.any (fun e => !e.isEmpty) = true := by
  induction l with
  | nil => simp [joinStr] at h
  | cons e rest ih =>
    rw [joinStr_cons, Ne, List.append_eq_nil] at h
    push_neg at h
    by_cases h0 : e = []
    · simp only [List.any_cons, Bool.or_eq_true]
      exact Or.inr (ih (h h0))
    · simp [List.any_cons, List.isEmpty_iff, h0]

theorem trimList_nil : trimList [] = [] := rfl

/-! ## Claim C2: content concatenation -/

/-- Claim C2 (amended).  For every list of content-only payloads `c1..cn` in
which no payload contains the terminator token `[DONE]`, the error marker
`错误:`, or the thinking marker `🤔思考: ` as a contiguous substring, decoding
them (including the decoder's subdivision of payloads longer than 20
characters) and applying the chunks through the per-character render driver
yields a final assistant message whose content is exactly `concat(c1..cn)`:
no character is reordered, dropped, or duplicated.  (The marker-freedom
hypothesis is forced by the counterexample: the read loop drops any chunk
containing `[DONE]` and diverts chunks starting with the other two markers.) -/
theorem claim_C2_theorem (prior : List ChatMessage) (mid : Str)
    (ts0 now : Int) (errId : Str) (cs : List Str)
    (hmarks : ∀ c ∈ cs, hasSub doneMark c = false ∧ hasSub errMark c = false ∧
      hasSub thinkMark c = false)
    (htrim : trimList (joinStr cs) ≠ []) :
    runTurn prior ⟨mid, "assistant".toList, [], ts0, none⟩
        (decodeEvents (cs.map StreamEvent.content)) errId now =
      prior ++ [⟨mid, "assistant".toList, joinStr cs, ts0, none⟩] := by
  have hchunkmarks : ∀ e ∈ decodeEvents (cs.map StreamEvent.content),
      hasSub doneMark e = false ∧ leadsWith errMark e = false ∧
      leadsWith thinkMark e = false := by
    intro e he
    rw [decodeEvents, List.mem_flatMap] at he
    obtain ⟨ev, hev, hee⟩ := he
    obtain ⟨c, hcmem, rfl⟩ := List.mem_map.mp hev
    obtain ⟨hd, herr, hth⟩ := hmarks c hcmem
    exact ⟨(emitContent_marks doneMark c hd e hee).1,
           (emitContent_marks errMark c herr e hee).2,
           (emitContent_marks thinkMark c hth e hee).2⟩
  have hjoin : joinStr (decodeEvents (cs.map StreamEvent.content)) = joinStr cs :=
    joinStr_decodeContents cs
  have hne : joinStr (decodeEvents (cs.map StreamEvent.content)) ≠ [] := by
    rw [hjoin]
    intro hc
    rw [hc] at htrim
    exact htrim trimList_nil
  have hany := any_nonempty_of_joinStr _ hne
  unfold runTurn
  rw [foldl_processChunk_plain now _ _ hchunkmarks]
  simp only [hany, hjoin, Bool.or_true, Bool.false_or]
  unfold finalizeThinking
  simp only [ne_eq, not_true_eq_false, false_and, if_false, Option.isSome_none,
    Bool.false_eq_true, and_false, if_neg, Bool.not_true, Bool.false_or]
  simp [htrim]

/-- Claim C2 fails as stated: the single content payload `a[DONE]b` is decoded
into one chunk which the read loop drops entirely (it contains `[DONE]`), so
the turn ends with zero received content and the final conversation holds only
the synthetic error message — not a message whose content is the
concatenation `a[DONE]b`. -/
theorem claim_C2_counterexample :
    runTurn [] ⟨"m1".toList, "assistant".toList, [], 0, none⟩
        (decodeEvents [StreamEvent.content "a[DONE]b".toList]) "e1".toList 0 =
      [⟨"e1".toList, "assistant".toList, "发生错误: 未接收到有效内容".toList, 0, none⟩] ∧
    ¬ ∃ m ∈ runTurn [] ⟨"m1".toList, "assistant".toList, [], 0, none⟩
        (decodeEvents [StreamEvent.content "a[DONE]b".toList]) "e1".toList 0,
      m.content = "a[DONE]b".toList := by
  constructor
  · rfl
  · decide

/-- Witness for claim C2's amended theorem at concrete payloads, one of which
is 25 characters long and is subdivided by the decoder. -/
theorem claim_C2_witness :
    runTurn [] ⟨"m1".toList, "assistant".toList, [], 5, none⟩
        (decodeEvents (["Hello,".toList, " world".toList,
          "abcdefghijklmnopqrstuvwxy".toList].map StreamEvent.content)) "e1".toList 9 =
      [⟨"m1".toList, "assistant".toList,
        joinStr ["Hello,".toList, " world".toList,
          "abcdefghijklmnopqrstuvwxy".toList], 5, none⟩] :=
  claim_C2_theorem [] "m1".toList 5 9 "e1".toList
    ["Hello,".toList, " world".toList, "abcdefghijklmnopqrstuvwxy".toList]
    (by decide) (by decide)

/-! ## Claim C4: thinking completion -/

theorem leadsWith_cons_ne (p c : Char) (ps cs : Str) (h : p ≠ c) :
    leadsWith (p :: ps) (c :: cs) = false := by
  simp [leadsWith, h]

theorem leadsWith_self_append (s t : Str) : leadsWith s (s ++ t) = true := by
  induction s with
  | nil => rfl
  | cons c cs ih => simp [leadsWith, ih]

/-- Prepending text that contains no `[` cannot create an occurrence of the
terminator token. -/
theorem hasSub_doneMark_append_left (pre t : Str) (h : ('[' : Char) ∉ pre) :
    hasSub doneMark (pre ++ t) = hasSub doneMark t := by
  induction pre with
  | nil => rfl
  | cons c pre ih =>
    have hc : ('[' : Char) ≠ c := fun hc => h (hc ▸ List.mem_cons_self c pre)
    have hlw : leadsWith doneMark (c :: (pre ++ t)) = false := by
      have hdm : doneMark = '[' :: "DONE]".toList := rfl
      rw [hdm]
      exact leadsWith_cons_ne _ _ _ _ hc
    have hmem : ('[' : Char) ∉ pre := fun hm => h (List.mem_cons_of_mem c hm)
    simp [hasSub, hlw, ih hmem]

/-- Applying one thinking chunk `🤔思考: ` + `t`: the text is accumulated into
the thinking buffer and into the message's thinking sub-record (created with
`isComplete = false` on first use), and the slot is re-synced with a copy. -/
theorem processChunk_think (now : Int) (st : RunState) (t : Str) (hne : t ≠ [])
    (hd : hasSub doneMark (thinkMark ++ t) = false) :
    processChunk now st (thinkMark ++ t) =
      { st with
        thinkingBuf := st.thinkingBuf ++ t
        msg := { st.msg with thinking := some (match st.msg.thinking with
          | none => ⟨st.thinkingBuf ++ t, false, now⟩
          | some th => ⟨st.thinkingBuf ++ t, th.isComplete, th.timestamp⟩) }
        touched := true } := by
  have h1 : thinkMark ++ t ≠ [] := by simp [thinkMark]
  have herr : leadsWith errMark (thinkMark ++ t) = false := by
    have h2 : thinkMark ++ t = '🤔' :: ("思考: ".toList ++ t) := rfl
    have h3 : errMark = '错' :: "误:".toList := rfl
    rw [h2, h3]
    exact leadsWith_cons_ne _ _ _ _ (by decide)
  have hth : leadsWith thinkMark (thinkMark ++ t) = true := leadsWith_self_append _ _
  have hdrop : (thinkMark ++ t).drop thinkMark.length = t := List.drop_left _ _
  unfold processChunk
  rw [if_neg h1]
  simp only [hd, herr, hth, Bool.false_eq_true, if_false, if_true, hdrop]

/-- Folding further thinking chunks onto a state whose thinking sub-record is
already open and in sync with the buffer. -/
theorem foldl_processChunk_think (now : Int) (ts : List Str) (st : RunState)
    (hts : ∀ t ∈ ts, t ≠ [] ∧ hasSub doneMark t = false)
    (hinv : st.msg.thinking = some ⟨st.thinkingBuf, false, now⟩) :
    (ts.map (fun t => thinkMark ++ t)).foldl (processChunk now) st =
      { st with
        thinkingBuf := st.thinkingBuf ++ joinStr ts
        msg := { st.msg with thinking := some ⟨st.thinkingBuf ++ joinStr ts, false, now⟩ }
        touched := st.touched || !ts.isEmpty } := by
  induction ts generalizing st with
  | nil =>
    simp only [List.map_nil, List.foldl_nil, joinStr_nil, List.append_nil,
      List.isEmpty_nil, Bool.not_true, Bool.or_false]
    rw [← hinv]
  | cons t rest ih =>
    obtain ⟨hne, hdm⟩ := hts t (List.mem_cons_self t rest)
    have hrest : ∀ x ∈ rest, x ≠ [] ∧ hasSub doneMark x = false :=
      fun x hx => hts x (List.mem_cons_of_mem t hx)
    have hd : hasSub doneMark (thinkMark ++ t) = false := by
      rw [hasSub_doneMark_append_left thinkMark t (by decide)]
      exact hdm
    rw [List.map_cons, List.foldl_cons, processChunk_think now st t hne hd, hinv]
    rw [ih _ hrest (by rfl)]
    simp [joinStr_cons, List.append_assoc]

/-- Decoding a list of non-empty thinking payloads yields exactly one marked
chunk per payload, in order. -/
theorem decode_thinkings (ts : List Str) (h : ∀ t ∈ ts, t ≠ []) :
    decodeEvents (ts.map StreamEvent.thinking) = ts.map (fun t => thinkMark ++ t) := by
  induction ts with
  | nil => rfl
  | cons t rest ih =>
    have hne := h t (List.mem_cons_self t rest)
    have hrest : ∀ x ∈ rest, x ≠ [] := fun x hx => h x (List.mem_cons_of_mem t hx)
    simp only [List.map_cons, decodeEvents, List.flatMap_cons, emitEvent, if_neg hne]
    simp only [decodeEvents] at ih
    rw [ih hrest]
    rfl

/-- Marker freedom of the payloads transfers to every decoded content chunk. -/
theorem decodeContents_marks (cs : List Str)
    (hcs : ∀ c ∈ cs, hasSub doneMark c = false ∧ hasSub errMark c = false ∧
      hasSub thinkMark c = false) :
    ∀ e ∈ decodeEvents (cs.map StreamEvent.content),
      hasSub doneMark e = false ∧ leadsWith errMark e = false ∧
      leadsWith thinkMark e = false := by
  intro e he
  rw [decodeEvents, List.mem_flatMap] at he
  obtain ⟨ev, hev, hee⟩ := he
  obtain ⟨c, hcmem, rfl⟩ := List.mem_map.mp hev
  obtain ⟨hd, herr, hth⟩ := hcs c hcmem
  exact ⟨(emitContent_marks doneMark c hd e hee).1,
         (emitContent_marks errMark c herr e hee).2,
         (emitContent_marks thinkMark c hth e hee).2⟩

/-- Explicit form of `finalizeThinking` on a state with a non-empty thinking
buffer and an open thinking sub-record. -/
theorem finalizeThinking_eq (m : ChatMessage) (buf : Str) (cr tch : Bool)
    (hb : buf ≠ []) (th : ThinkingContent) (hth : m.thinking = some th) :
    finalizeThinking ⟨m, buf, cr, tch⟩ =
      ⟨{ m with thinking := some ⟨th.content, true, th.timestamp⟩ }, buf, cr, tch⟩ := by
  unfold finalizeThinking
  rw [if_pos ⟨hb, by simp [hth]⟩, hth]
  rfl

theorem finalizeThinking_contentReceived (st : RunState) :
    (finalizeThinking st).contentReceived = st.contentReceived := by
  unfold finalizeThinking
  split <;> rfl

theorem finalizeThinking_msg_content (st : RunState) :
    (finalizeThinking st).msg.content = st.msg.content := by
  unfold finalizeThinking
  split <;> rfl

/-- Claim C4 (amended).  If all thinking chunks of a turn arrive before any
content chunk, the resulting message's thinking sub-record has
`isComplete = true` and content equal to the concatenation of the thinking
texts, and the message content equals the concatenation of the content
payloads.  The sub-record is marked complete at end-of-stream (the
`if (thinkingContent && assistantMessage.thinking)` block after the read
loop), not at the moment the first content event is processed — the
counterexample below shows `isComplete` is still `false` right after the
first content event has been applied. -/
theorem claim_C4_theorem (prior : List ChatMessage) (mid : Str) (ts0 now : Int)
    (errId : Str) (ts cs : List Str)
    (htsne : ts ≠ [])
    (hts : ∀ t ∈ ts, t ≠ [] ∧ hasSub doneMark t = false)
    (hcs : ∀ c ∈ cs, hasSub doneMark c = false ∧ hasSub errMark c = false ∧
      hasSub thinkMark c = false)
    (htrim : trimList (joinStr cs) ≠ []) :
    runTurn prior ⟨mid, "assistant".toList, [], ts0, none⟩
        (decodeEvents (ts.map StreamEvent.thinking ++ cs.map StreamEvent.content))
        errId now =
      prior ++ [⟨mid, "assistant".toList, joinStr cs, ts0,
        some ⟨joinStr ts, true, now⟩⟩] := by
  have hsplit : decodeEvents (ts.map StreamEvent.thinking ++ cs.map StreamEvent.content) =
      decodeEvents (ts.map StreamEvent.thinking) ++ decodeEvents (cs.map StreamEvent.content) := by
    simp [decodeEvents]
  rw [hsplit, decode_thinkings ts (fun t ht => (hts t ht).1)]
  cases ts with
  | nil => exact absurd rfl htsne
  | cons t0 rest =>
    have ht0 := hts t0 (List.mem_cons_self t0 rest)
    have hrest : ∀ x ∈ rest, x ≠ [] ∧ hasSub doneMark x = false :=
      fun x hx => hts x (List.mem_cons_of_mem t0 hx)
    have hd0 : hasSub doneMark (thinkMark ++ t0) = false := by
      rw [hasSub_doneMark_append_left thinkMark t0 (by decide)]
      exact ht0.2
    unfold runTurn
    rw [List.foldl_append, List.map_cons, List.foldl_cons,
      processChunk_think now _ t0 ht0.1 hd0]
    rw [foldl_processChunk_think now rest _ hrest (by rfl)]
    rw [foldl_processChunk_plain now _ _ (decodeContents_marks cs hcs)]
    have hjoin : joinStr (decodeEvents (cs.map StreamEvent.content)) = joinStr cs :=
      joinStr_decodeContents cs
    have hne : joinStr (decodeEvents (cs.map StreamEvent.content)) ≠ [] := by
      rw [hjoin]
      intro hc
      rw [hc] at htrim
      exact htrim trimList_nil
    have hany := any_nonempty_of_joinStr _ hne
    have hbufne : t0 ++ joinStr rest ≠ [] := by
      intro hc
      rw [List.append_eq_nil] at hc
      exact ht0.1 hc.1
    simp only [List.nil_append]
    split
    · rename_i hcond
      exfalso
      simp only [finalizeThinking_contentReceived, finalizeThinking_msg_content, hany,
        Bool.false_or, Bool.not_true, Bool.or_false, hjoin, Bool.false_eq_true,
        decide_eq_true_eq] at hcond
      exact htrim hcond
    · rw [finalizeThinking_eq _ _ _ _ hbufne _ rfl]
      simp [hjoin, joinStr_cons]

/-- Claim C4 fails as stated: after the chunks `🤔思考: a` and `b` have been
read — i.e. exactly when the first content event of the turn has been
processed and an open thinking sub-record exists — the sub-record still has
`isComplete = false`; the read loop's content branch never touches it. -/
theorem claim_C4_counterexample :
    (([thinkMark ++ "a".toList, "b".toList].foldl (processChunk 0)
        ⟨⟨"m1".toList, "assistant".toList, [], 0, none⟩, [], false, false⟩).msg.thinking =
      some ⟨"a".toList, false, 0⟩) ∧
    (([thinkMark ++ "a".toList, "b".toList].foldl (processChunk 0)
        ⟨⟨"m1".toList, "assistant".toList, [], 0, none⟩, [], false, false⟩).contentReceived
      = true) := by
  exact ⟨rfl, rfl⟩

/-- Witness for claim C4's amended theorem at concrete thinking and content
payloads. -/
theorem claim_C4_witness :
    runTurn [] ⟨"m1".toList, "assistant".toList, [], 3, none⟩
        (decodeEvents (["checking".toList, "syntax".toList].map StreamEvent.thinking ++
          ["The answer".toList].map StreamEvent.content)) "e1".toList 7 =
      [⟨"m1".toList, "assistant".toList, joinStr ["The answer".toList], 3,
        some ⟨joinStr ["checking".toList, "syntax".toList], true, 7⟩⟩] :=
  claim_C4_theorem [] "m1".toList 3 7 "e1".toList
    ["checking".toList, "syntax".toList] ["The answer".toList]
    (by decide) (by decide) (by decide) (by decide)

/-! ## Claim C3: Terminal-Error atomicity -/

theorem mem_dropWhile_of_mem (l : Str) (c : Char) (hc : c ∈ l) (hw : isWs c = false) :
    c ∈ l.dropWhile isWs := by
  induction l with
  | nil => cases hc
  | cons a l ih =>
    by_cases ha : isWs a = true
    · rw [List.dropWhile_cons_of_pos ha]
      rcases List.mem_cons.mp hc with rfl | hc'
      · rw [hw] at ha
        cases ha
      · exact ih hc'
    · rw [List.dropWhile_cons_of_neg ha]
      exact hc

/-- A string containing a non-whitespace character does not trim to empty. -/
theorem trimList_ne_nil_of_mem (l : Str) (c : Char) (hc : c ∈ l) (hw : isWs c = false) :
    trimList l ≠ [] := by
  unfold trimList
  have h1 := mem_dropWhile_of_mem l c hc hw
  have h2 : c ∈ (l.dropWhile isWs).reverse := List.mem_reverse.mpr h1
  have h3 := mem_dropWhile_of_mem _ c h2 hw
  intro hnil
  rw [List.reverse_eq_nil_iff] at hnil
  rw [hnil] at h3
  cases h3

theorem leadsWith_errMark_errChunk (e : Str) :
    leadsWith errMark ("错误: ".toList ++ e) = true := by
  have h1 : "错误: ".toList ++ e = errMark ++ (' ' :: e) := rfl
  rw [h1]
  exact leadsWith_self_append _ _

/-- Claim C3 (amended).  When a turn ends through `_handleStreamError` with no
chunk applied to the pending assistant message (e.g. a stream that yields no
chunks), the pending message is removed and exactly one new assistant message
`发生错误: …` is appended; the final conversation does not contain the pending
message.  An `error` event, however, does not terminate the turn: the read
loop appends a newline plus the event text `错误: …` to the pending message's
content, counts it as received content, and the turn ends with that message
retained — no replacement error message is created for it. -/
theorem claim_C3_theorem (prior : List ChatMessage) (mid errId : Str)
    (ts0 now : Int) (e : Str)
    (hmid : mid ≠ errId) (he : e ≠ []) (hde : hasSub doneMark e = false) :
    (runTurn prior ⟨mid, "assistant".toList, [], ts0, none⟩ [] errId now =
      prior ++ [⟨errId, "assistant".toList,
        "发生错误: 未接收到有效内容".toList, now, none⟩]) ∧
    ((∀ m ∈ prior, m.id ≠ mid) →
      ∀ m ∈ runTurn prior ⟨mid, "assistant".toList, [], ts0, none⟩ [] errId now,
        m.id ≠ mid) ∧
    (runTurn prior ⟨mid, "assistant".toList, [], ts0, none⟩
        (decodeEvents [StreamEvent.error e]) errId now =
      prior ++ [⟨mid, "assistant".toList, '\n' :: ("错误: ".toList ++ e), ts0, none⟩]) := by
  refine ⟨rfl, ?_, ?_⟩
  · intro hprior m hm
    have hrun : runTurn prior ⟨mid, "assistant".toList, [], ts0, none⟩ [] errId now =
        prior ++ [⟨errId, "assistant".toList,
          "发生错误: 未接收到有效内容".toList, now, none⟩] := rfl
    rw [hrun] at hm
    rcases List.mem_append.mp hm with hm | hm
    · exact hprior m hm
    · rw [List.mem_singleton] at hm
      subst hm
      exact fun hc => hmid hc.symm
  · have hchunk : decodeEvents [StreamEvent.error e] = ["错误: ".toList ++ e] := by
      simp [decodeEvents, emitEvent, he]
    rw [hchunk]
    have hdone : hasSub doneMark ("错误: ".toList ++ e) = false := by
      rw [hasSub_doneMark_append_left "错误: ".toList e (by decide)]
      exact hde
    have hcne : "错误: ".toList ++ e ≠ [] := by simp
    have hpc : processChunk now ⟨⟨mid, "assistant".toList, [], ts0, none⟩, [], false, false⟩
        ("错误: ".toList ++ e) =
        ⟨⟨mid, "assistant".toList, '\n' :: ("错误: ".toList ++ e), ts0, none⟩, [], true, true⟩ := by
      unfold processChunk
      rw [if_neg hcne]
      simp only [hdone, Bool.false_eq_true, if_false, leadsWith_errMark_errChunk, if_true]
      rfl
    unfold runTurn
    rw [List.foldl_cons, hpc, List.foldl_nil]
    have htr : trimList ('\n' :: ("错误: ".toList ++ e)) ≠ [] := by
      apply trimList_ne_nil_of_mem _ '错'
      · exact List.mem_cons_of_mem _ (List.mem_append_left _ (by decide))
      · decide
    unfold finalizeThinking
    simp [htr]
    intro hcontra
    exact absurd hcontra htr

/-- Claim C3 fails as stated: a turn that yields exactly one error event
(`错误: 服务异常`) does not discard the pending assistant message — the event
text is appended to that message (with a leading newline) and the message
stays in the final conversation, and no replacement assistant message starting
with `发生错误:` is appended. -/
theorem claim_C3_counterexample :
    runTurn [] ⟨"m1".toList, "assistant".toList, [], 0, none⟩
        (decodeEvents [StreamEvent.error "服务异常".toList]) "e1".toList 0 =
      [⟨"m1".toList, "assistant".toList, '\n' :: "错误: 服务异常".toList, 0, none⟩] ∧
    ¬ ∃ m ∈ runTurn [] ⟨"m1".toList, "assistant".toList, [], 0, none⟩
        (decodeEvents [StreamEvent.error "服务异常".toList]) "e1".toList 0,
      leadsWith "发生错误:".toList m.content = true := by
  exact ⟨rfl, by decide⟩

/-- Witness for claim C3's amended theorem at concrete inputs. -/
theorem claim_C3_witness :
    (runTurn [] ⟨"m1".toList, "assistant".toList, [], 2, none⟩ [] "e1".toList 4 =
      [⟨"e1".toList, "assistant".toList,
        "发生错误: 未接收到有效内容".toList, 4, none⟩]) ∧
    ((∀ m ∈ ([] : List ChatMessage), m.id ≠ "m1".toList) →
      ∀ m ∈ runTurn [] ⟨"m1".toList, "assistant".toList, [], 2, none⟩ [] "e1".toList 4,
        m.id ≠ "m1".toList) ∧
    (runTurn [] ⟨"m1".toList, "assistant".toList, [], 2, none⟩
        (decodeEvents [StreamEvent.error "boom".toList]) "e1".toList 4 =
      [⟨"m1".toList, "assistant".toList,
        '\n' :: ("错误: ".toList ++ "boom".toList), 2, none⟩]) :=
  claim_C3_theorem [] "m1".toList "e1".toList 2 4 "boom".toList
    (by decide) (by decide) (by decide)

/-! ## Claim C5: pathological chunk handling -/

/-- On a non-empty line with no leading `data:` marker and no occurrence of
the terminator token, the non-JSON path of `processLine` enqueues the line as
plain content, subdivided only when longer than 30 characters. -/
theorem processLineNonJson_eq (s : Str) (hne : s ≠ [])
    (hdata : leadsWith dataMark s = false) (hd : hasSub doneMark s = false) :
    processLineNonJson s =
      if 30 < s.length then subdivide (min 30 ((s.length + 3) / 4)) s else [s] := by
  have hstrip : stripDataMarks s = s := by
    rw [stripDataMarks, dif_neg]
    simp [hdata]
  have hnot1 : s ≠ "data: [DONE]".toList := by
    rintro rfl
    rw [show hasSub doneMark "data: [DONE]".toList = true from by decide] at hd
    cases hd
  have hnot2 : s ≠ doneMark := by
    rintro rfl
    rw [show hasSub doneMark doneMark = true from by decide] at hd
    cases hd
  unfold processLineNonJson
  rw [if_neg (by tauto)]
  simp only [hstrip]
  rw [if_neg hne, if_neg (by simp [hd])]

/-- Marker freedom transfers from a string to each of its contiguous
segments. -/
theorem segments_marks (pat s : Str) (hs : hasSub pat s = false) (l : List Str)
    (hl : ∀ e ∈ l, ∃ pre post, pre ++ (e ++ post) = s) :
    ∀ e ∈ l, hasSub pat e = false ∧ leadsWith pat e = false := by
  intro e he
  obtain ⟨pre, post, hp⟩ := hl e he
  constructor
  · by_contra hx
    rw [Bool.not_eq_false] at hx
    rw [hasSub_of_segment pat e pre post s hp hx] at hs
    cases hs
  · by_contra hx
    rw [Bool.not_eq_false] at hx
    rw [leadsWith_segment_hasSub pat e pre post s hp hx] at hs
    cases hs

/-- A turn whose decoded chunks are plain content (no markers) ends in
Terminal-Success with the concatenation of the chunks as message content. -/
theorem runTurn_plain_chunks (prior : List ChatMessage) (mid : Str)
    (ts0 now : Int) (errId : Str) (chunks : List Str)
    (hmarks : ∀ e ∈ chunks, hasSub doneMark e = false ∧ leadsWith errMark e = false ∧
      leadsWith thinkMark e = false)
    (htrim : trimList (joinStr chunks) ≠ []) :
    runTurn prior ⟨mid, "assistant".toList, [], ts0, none⟩ chunks errId now =
      prior ++ [⟨mid, "assistant".toList, joinStr chunks, ts0, none⟩] := by
  have hnil : joinStr chunks ≠ [] := by
    intro hc
    rw [hc] at htrim
    exact htrim trimList_nil
  have hany := any_nonempty_of_joinStr _ hnil
  unfold runTurn
  rw [foldl_processChunk_plain now _ _ hmarks]
  simp only [hany, Bool.or_true, Bool.false_or]
  unfold finalizeThinking
  simp only [ne_eq, not_true_eq_false, false_and, if_false, Option.isSome_none,
    Bool.false_eq_true, and_false, if_neg, Bool.not_true, Bool.false_or]
  simp [htrim]

/-- Claim C5 (amended).  A chunk that consists of raw plain text — e.g. a raw
language-runtime exception signature such as `TypeError: …` — is not turned
into an error event by the decoder: the non-JSON path forwards the text
verbatim as one or more content events (subdivided when longer than 30
characters), the turn ends in Terminal-Success, and the raw text appears
unchanged as the content of the retained assistant message.  No synthetic
error event is produced and the pending message is not discarded. -/
theorem claim_C5_theorem (prior : List ChatMessage) (mid errId : Str)
    (ts0 now : Int) (s : Str)
    (hne : s ≠ []) (hdata : leadsWith dataMark s = false)
    (hd : hasSub doneMark s = false) (herr : hasSub errMark s = false)
    (hth : hasSub thinkMark s = false) (htrim : trimList s ≠ []) :
    runTurn prior ⟨mid, "assistant".toList, [], ts0, none⟩
        (processLineNonJson s) errId now =
      prior ++ [⟨mid, "assistant".toList, s, ts0, none⟩] := by
  rw [processLineNonJson_eq s hne hdata hd]
  by_cases h30 : 30 < s.length
  · rw [if_pos h30]
    have hseg := subdivide_mem_segment (min 30 ((s.length + 3) / 4)) s
    have hmarks : ∀ e ∈ subdivide (min 30 ((s.length + 3) / 4)) s,
        hasSub doneMark e = false ∧ leadsWith errMark e = false ∧
        leadsWith thinkMark e = false := by
      intro e he
      exact ⟨(segments_marks doneMark s hd _ hseg e he).1,
             (segments_marks errMark s herr _ hseg e he).2,
             (segments_marks thinkMark s hth _ hseg e he).2⟩
    have hjoin := joinStr_subdivide (min 30 ((s.length + 3) / 4)) s
    rw [runTurn_plain_chunks prior mid ts0 now errId _ hmarks (by rw [hjoin]; exact htrim),
      hjoin]
  · rw [if_neg h30]
    have hmarks : ∀ e ∈ [s], hasSub doneMark e = false ∧ leadsWith errMark e = false ∧
        leadsWith thinkMark e = false := by
      intro e he
      rw [List.mem_singleton] at he
      subst he
      refine ⟨hd, ?_, ?_⟩
      · by_contra hx
        rw [Bool.not_eq_false] at hx
        rw [leadsWith_hasSub errMark e hx] at herr
        cases herr
      · by_contra hx
        rw [Bool.not_eq_false] at hx
        rw [leadsWith_hasSub thinkMark e hx] at hth
        cases hth
    have hjoin : joinStr [s] = s := by simp [joinStr_cons, joinStr_nil]
    rw [runTurn_plain_chunks prior mid ts0 now errId [s] hmarks (by rw [hjoin]; exact htrim),
      hjoin]

/-- Claim C5 fails as stated: the single raw exception-signature chunk
`TypeError: test` is decoded into one plain content chunk carrying the raw
signature (no error event), and the turn ends with the pending message
retained, its content being exactly the raw signature text; no `发生错误:`
replacement message exists in the final conversation. -/
theorem claim_C5_counterexample :
    processLineNonJson "TypeError: test".toList = ["TypeError: test".toList] ∧
    runTurn [] ⟨"m1".toList, "assistant".toList, [], 0, none⟩
        ["TypeError: test".toList] "e1".toList 0 =
      [⟨"m1".toList, "assistant".toList, "TypeError: test".toList, 0, none⟩] ∧
    ¬ ∃ m ∈ runTurn [] ⟨"m1".toList, "assistant".toList, [], 0, none⟩
        ["TypeError: test".toList] "e1".toList 0,
      leadsWith "发生错误:".toList m.content = true := by
  refine ⟨?_, rfl, by decide⟩
  rw [processLineNonJson_eq _ (by decide) (by decide) (by decide)]
  decide

/-- Witness for claim C5's amended theorem at the concrete raw signature
`TypeError: test`. -/
theorem claim_C5_witness :
    runTurn [] ⟨"m2".toList, "assistant".toList, [], 1, none⟩
        (processLineNonJson "TypeError: test".toList) "e2".toList 6 =
      [⟨"m2".toList, "assistant".toList, "TypeError: test".toList, 1, none⟩] :=
  claim_C5_theorem [] "m2".toList "e2".toList 1 6 "TypeError: test".toList
    (by decide) (by decide) (by decide) (by decide) (by decide) (by decide)

/-! ## Claim C1: single-flight guard -/

/-- Claim C1 evidence.  During the Streaming (and Thinking) phases of a
streaming turn the store has `isAIResponding = false` and
`isStreamingContent = true`, and `sendMessage`'s guard — which checks only
`isAIResponding` — does not reject a second send: the call would append a new
user message and start a second turn while the first is still non-terminal.
Rejection does hold in the Awaiting phase, where `isAIResponding` is true. -/
theorem claim_C1_theorem :
    (sendMessageRejected streamingPhaseFlags "hello".toList = false ∧
      streamingPhaseFlags.isStreamingContent = true) ∧
    sendMessageRejected awaitingPhaseFlags "hello".toList = true := by
  exact ⟨⟨rfl, rfl⟩, rfl⟩

/-! ## Message formatting (MainLayout.vue `formatMessages`) -/

/-- Runtime value of an entry's `content` field: absent (or `null`), a string,
or some present non-string value. -/
inductive JsVal where
  | absent
  | str (s : Str)
  | nonString
deriving DecidableEq

/-- One element of the message list handed to `formatMessages`: either not an
object at all, or an object with optional `role` (a string when present) and
`content` fields. -/
inductive RawEntry where
  | notObject
  | entry (role : Option Str) (content : JsVal)
deriving DecidableEq

/-- An entry of the formatted list sent to the API (`role`/`content` only). -/
structure FormattedMessage where
  role : Str
  content : Str
deriving DecidableEq

/-- The per-element mapping of `formatMessages` (MainLayout.vue lines
547-568): a non-object becomes `{role: 'user', content: '无效消息'}`; a
missing or empty (JS-falsy) role becomes `user`; a missing, empty, or
non-string content becomes `内容为空`; a non-empty string content is
trimmed. -/
def formatOne : RawEntry → FormattedMessage
  | .notObject => ⟨"user".toList, "无效消息".toList⟩
  | .entry r c =>
      ⟨(match r with
        | none => "user".toList
        | some s => if s = [] then "user".toList else s),
       (match c with
        | .str s => if s = [] then "内容为空".toList else trimList s
        | _ => "内容为空".toList)⟩

/-- `formatMessages` (MainLayout.vue lines 540-570): empty input warns and
returns `[]`; otherwise each entry is mapped by `formatOne` and entries whose
resulting content is empty (JS-falsy) are filtered out. -/
def formatMessages (l : List RawEntry) : List FormattedMessage :=
  if l = [] then []
  else (l.map formatOne).filter (fun m => !m.content.isEmpty)

/-- Reference function written from claim C10's wording: a non-object element
is replaced by the fixed entry `{role: 'user', content: '无效消息'}`; an
element whose content is missing (absent or JS-falsy empty) or not a string
gets the placeholder `内容为空`; an element whose content is a non-empty
whitespace-only string is removed; every other element keeps its role (with a
missing/empty role defaulting to `user`) and has its content trimmed. -/
def claimFormatEntry : RawEntry → Option FormattedMessage
  | .notObject => some ⟨"user".toList, "无效消息".toList⟩
  | .entry r c =>
      let role := match r with
        | none => "user".toList
        | some s => if s = [] then "user".toList else s
      match c with
      | .str s =>
          if s = [] then some ⟨role, "内容为空".toList⟩
          else if trimList s = [] then none
          else some ⟨role, trimList s⟩
      | _ => some ⟨role, "内容为空".toList⟩

theorem formatMessages_eq_filterMap (l : List RawEntry) :
    formatMessages l = l.filterMap claimFormatEntry := by
  have key : ∀ m : List RawEntry,
      (m.map formatOne).filter (fun x => !x.content.isEmpty) =
        m.filterMap claimFormatEntry := by
    intro m
    induction m with
    | nil => rfl
    | cons e rest ih =>
      rw [List.map_cons, List.filter_cons, List.filterMap_cons]
      cases e with
      | notObject =>
        rw [ih]
        rfl
      | entry r c =>
        cases c with
        | absent =>
          rw [ih]
          rfl
        | nonString =>
          rw [ih]
          rfl
        | str s =>
          by_cases hs : s = []
          · subst hs
            rw [ih]
            rfl
          · by_cases ht : trimList s = []
            · simp only [formatOne, claimFormatEntry, if_neg hs, ht, ih]
              rfl
            · simp only [formatOne, claimFormatEntry, if_neg hs, if_neg ht, ih]
              have : (!(trimList s).isEmpty) = true := by
                simp [List.isEmpty_iff, ht]
              simp [this]
  unfold formatMessages
  by_cases hl : l = []
  · subst hl
    rfl
  · rw [if_neg hl, key l]

/-- Claim C10.  `formatMessages` never outputs an entry with empty content,
and element-wise it behaves exactly as the claim describes (formalised by
`claimFormatEntry`): non-objects are replaced by the fixed `无效消息` entry
rather than dropped, missing/empty/non-string contents become `内容为空`,
non-empty whitespace-only contents are the only elements removed, and all
other elements keep their role with trimmed content. -/
theorem claim_C10_theorem (l : List RawEntry) :
    formatMessages l = l.filterMap claimFormatEntry ∧
    ∀ m ∈ formatMessages l, m.content ≠ [] := by
  refine ⟨formatMessages_eq_filterMap l, ?_⟩
  intro m hm
  unfold formatMessages at hm
  by_cases hl : l = []
  · rw [if_pos hl] at hm
    cases hm
  · rw [if_neg hl] at hm
    have := List.of_mem_filter hm
    simpa [List.isEmpty_iff] using this

/-- Witness for claim C10 at a concrete malformed entry. -/
theorem claim_C10_witness :
    formatMessages [RawEntry.notObject] = [RawEntry.notObject].filterMap claimFormatEntry ∧
    ("无效消息".toList : Str) ≠ [] :=
  ⟨(claim_C10_theorem [RawEntry.notObject]).1,
   by
    have h := (claim_C10_theorem [RawEntry.notObject]).2
      ⟨"user".toList, "无效消息".toList⟩ (by decide)
    simpa using h⟩

/-! ## Retrying request client (MainLayout.vue `aiService.sendMessageWithRetry`) -/

/-- JS truthiness of an optional string field: falsy when absent or empty. -/
def jsFalsy : Option Str → Bool
  | none => true
  | some s => s.isEmpty

/-- The body of a completed HTTP response (`response.data`): the `content`
field and the alternate `message.content` field path. -/
structure RespData where
  content : Option Str
  messageContent : Option Str
deriving DecidableEq

/-- A failed attempt, as classified by the catch block: an axios error with a
response (carrying its HTTP status), an axios error without a response, or a
non-axios error (a plain thrown `Error`). -/
inductive ReqFailure where
  | axiosStatus (status : Nat)
  | axiosNoResponse
  | generic (msg : Str)
deriving DecidableEq

/-- The retry condition of the catch block:
`!axios.isAxiosError(error) || !error.response || error.response.status >= 500`. -/
def retryable : ReqFailure → Bool
  | .axiosStatus status => 500 ≤ status
  | .axiosNoResponse => true
  | .generic _ => true

/-- Outcome of one network attempt (`api.post`). -/
inductive AttemptOutcome where
  | ok (d : RespData)
  | err (e : ReqFailure)

/-- The errors `sendMessageWithRetry` can throw: the three precondition
errors, an error propagated from an attempt, and the unreachable
`throw lastError` with `lastError = null` when `maxRetries = 0`. -/
inductive ReqError where
  | noModel
  | emptyMessages
  | emptyFormatted
  | fromAttempt (e : ReqFailure)
  | nullError
deriving DecidableEq

/-- The field-path repair of the response check:
`if (!response.data.content && response.data.message?.content)
   response.data.content = response.data.message.content`. -/
def repair (d : RespData) : RespData :=
  if jsFalsy d.content && !jsFalsy d.messageContent then
    ⟨d.messageContent, d.messageContent⟩
  else d

/-- Result of `sendMessageWithRetry`: the returned response or thrown error,
the payload of every network attempt made (in order), and the backoff delays
awaited (in milliseconds, in order). -/
structure RetryResult where
  result : Except ReqError RespData
  sent : List (List FormattedMessage)
  delays : List Nat

/-- Outcome of one iteration's try block before the catch: a returned
response with usable (possibly repaired) content, or the raised failure — a
response whose content is still missing after repair raises a plain `Error`
(`响应格式异常：缺少内容`), which the catch classifies as non-axios. -/
def attemptResult : AttemptOutcome → Except ReqFailure RespData
  | .ok d =>
      if jsFalsy (repair d).content then .error (.generic "响应格式异常：缺少内容".toList)
      else .ok (repair d)
  | .err e => .error e

/-- The `while (retries < maxRetries)` loop of `sendMessageWithRetry`
(MainLayout.vue lines 835-916).  Each iteration posts the formatted messages;
a 422 axios error is rethrown without retry; other failures retry when
retryable (`retries` incremented, delay `1000 * retries` ms) until
`maxRetries`, the last error being rethrown. -/
def sendMessageWithRetryLoop (attempt : Nat → AttemptOutcome)
    (fm : List FormattedMessage) (maxRetries retries : Nat)
    (sent : List (List FormattedMessage)) (delays : List Nat) : RetryResult :=
  if retries < maxRetries then
    let sent' := sent ++ [fm]
    match attemptResult (attempt retries) with
    | .ok d' => ⟨.ok d', sent', delays⟩
    | .error e =>
        if e = .axiosStatus 422 then ⟨.error (.fromAttempt e), sent', delays⟩
        else if retryable e then
          if retries + 1 < maxRetries then
            sendMessageWithRetryLoop attempt fm maxRetries (retries + 1) sent'
              (delays ++ [1000 * (retries + 1)])
          else ⟨.error (.fromAttempt e), sent', delays⟩
        else ⟨.error (.fromAttempt e), sent', delays⟩
  else ⟨.error .nullError, sent, delays⟩
termination_by maxRetries - retries
decreasing_by omega

/-- `sendMessageWithRetry` (MainLayout.vue lines 810-916): validate the model
identifier, the raw message list, and the formatted message list before any
network attempt, then run the retry loop with the formatted messages. -/
def sendMessageWithRetry (attempt : Nat → AttemptOutcome) (model : Str)
    (messages : List RawEntry) (maxRetries : Nat) : RetryResult :=
  if model = [] then ⟨.error .noModel, [], []⟩
  else if messages = [] then ⟨.error .emptyMessages, [], []⟩
  else if formatMessages messages = [] then ⟨.error .emptyFormatted, [], []⟩
  else sendMessageWithRetryLoop attempt (formatMessages messages) maxRetries 0 [] []

/-- The claim's server classification: a 5xx response or no response. -/
def serverClass (e : ReqFailure) : Prop :=
  (∃ s, e = .axiosStatus s ∧ 500 ≤ s) ∨ e = .axiosNoResponse

theorem serverClass_not422 (e : ReqFailure) (h : serverClass e) :
    (e = .axiosStatus 422) = False ∧ retryable e = true := by
  rcases h with ⟨s, rfl, hs⟩ | rfl
  · constructor
    · simp only [eq_iff_iff, iff_false]
      intro hc
      cases hc
      omega
    · simpa [retryable] using hs
  · exact ⟨by simp, rfl⟩

/-- Claim C6.  With `maxAttempts = 3`, a request failing with server
classification (5xx response or no response) on attempts 1 and 2 and
succeeding on attempt 3 returns the successful (repaired) response, makes
exactly 3 network attempts, and waits exactly 2 linearly increasing backoff
delays of `1 * 1000` ms and `2 * 1000` ms. -/
theorem claim_C6_theorem (attempt : Nat → AttemptOutcome) (model : Str)
    (messages : List RawEntry) (f0 f1 : ReqFailure) (d : RespData)
    (hmodel : model ≠ []) (hmsgs : messages ≠ []) (hfmt : formatMessages messages ≠ [])
    (h0 : attempt 0 = .err f0) (h1 : attempt 1 = .err f1) (h2 : attempt 2 = .ok d)
    (hs0 : serverClass f0) (hs1 : serverClass f1)
    (hd : jsFalsy (repair d).content = false) :
    sendMessageWithRetry attempt model messages 3 =
      ⟨.ok (repair d),
       [formatMessages messages, formatMessages messages, formatMessages messages],
       [1 * 1000, 2 * 1000]⟩ := by
  obtain ⟨hne0, hr0⟩ := serverClass_not422 f0 hs0
  obtain ⟨hne1, hr1⟩ := serverClass_not422 f1 hs1
  unfold sendMessageWithRetry
  rw [if_neg hmodel, if_neg hmsgs, if_neg hfmt]
  rw [sendMessageWithRetryLoop, if_pos (by omega)]
  simp only [h0, hne0, eq_iff_iff, iff_false, hr0]
  norm_num
  rw [sendMessageWithRetryLoop, if_pos (by omega)]
  simp only [h1, hne1, eq_iff_iff, iff_false, hr1]
  norm_num
  rw [sendMessageWithRetryLoop, if_pos (by omega)]
  simp only [h2, hd]
  norm_num
  simp [attemptResult, hne0, hne1, hr0, hr1, hd]

/-- Witness for claim C6 at a concrete attempt schedule: HTTP 500, then no
response, then success. -/
theorem claim_C6_witness :
    sendMessageWithRetry
        (fun n => match n with
          | 0 => .err (.axiosStatus 500)
          | 1 => .err .axiosNoResponse
          | _ => .ok ⟨some "ok".toList, none⟩)
        "deepseek-chat".toList
        [RawEntry.entry (some "user".toList) (.str "hi".toList)] 3 =
      ⟨.ok (repair ⟨some "ok".toList, none⟩),
       [formatMessages [RawEntry.entry (some "user".toList) (.str "hi".toList)],
        formatMessages [RawEntry.entry (some "user".toList) (.str "hi".toList)],
        formatMessages [RawEntry.entry (some "user".toList) (.str "hi".toList)]],
       [1 * 1000, 2 * 1000]⟩ :=
  claim_C6_theorem _ _ _ (.axiosStatus 500) .axiosNoResponse ⟨some "ok".toList, none⟩
    (by decide) (by decide) (by decide) rfl rfl rfl
    (Or.inl ⟨500, rfl, by omega⟩) (Or.inr rfl) (by decide)

/-- Claim C7.  A request whose first attempt fails with validation
classification (HTTP 422) is failed immediately: one network attempt, zero
retries, no backoff delay, and the original error is propagated unchanged. -/
theorem claim_C7_theorem (attempt : Nat → AttemptOutcome) (model : Str)
    (messages : List RawEntry) (maxRetries : Nat)
    (hmodel : model ≠ []) (hmsgs : messages ≠ []) (hfmt : formatMessages messages ≠ [])
    (hmax : 0 < maxRetries)
    (h0 : attempt 0 = .err (.axiosStatus 422)) :
    sendMessageWithRetry attempt model messages maxRetries =
      ⟨.error (.fromAttempt (.axiosStatus 422)), [formatMessages messages], []⟩ := by
  unfold sendMessageWithRetry
  rw [if_neg hmodel, if_neg hmsgs, if_neg hfmt]
  rw [sendMessageWithRetryLoop, if_pos hmax]
  simp only [h0]
  rfl

/-- Witness for claim C7 at a concrete 422 failure. -/
theorem claim_C7_witness :
    sendMessageWithRetry (fun _ => .err (.axiosStatus 422)) "deepseek-chat".toList
        [RawEntry.entry (some "user".toList) (.str "hi".toList)] 3 =
      ⟨.error (.fromAttempt (.axiosStatus 422)),
       [formatMessages [RawEntry.entry (some "user".toList) (.str "hi".toList)]], []⟩ :=
  claim_C7_theorem _ _ _ 3 (by decide) (by decide) (by decide) (by omega) rfl

/-- Every payload the retry loop posts is the formatted message list it was
given. -/
theorem sendMessageWithRetryLoop_sent (attempt : Nat → AttemptOutcome)
    (fm : List FormattedMessage) (maxRetries : Nat) :
    ∀ fuel retries sent delays, maxRetries - retries ≤ fuel →
      (∀ p ∈ sent, p = fm) →
      ∀ p ∈ (sendMessageWithRetryLoop attempt fm maxRetries retries sent delays).sent,
        p = fm := by
  intro fuel
  induction fuel with
  | zero =>
    intro retries sent delays hf hs p hp
    rw [sendMessageWithRetryLoop, if_neg (by omega)] at hp
    exact hs p hp
  | succ n ih =>
    intro retries sent delays hf hs p hp
    by_cases hlt : retries < maxRetries
    · rw [sendMessageWithRetryLoop, if_pos hlt] at hp
      have hs' : ∀ q ∈ sent ++ [fm], q = fm := by
        intro q hq
        rcases List.mem_append.mp hq with hq | hq
        · exact hs q hq
        · rw [List.mem_singleton] at hq
          exact hq
      split at hp
      · exact hs' p hp
      · split at hp
        · exact hs' p hp
        · split at hp
          · split at hp
            · exact ih (retries + 1) (sent ++ [fm]) _ (by omega) hs' p hp
            · exact hs' p hp
          · exact hs' p hp
    · rw [sendMessageWithRetryLoop, if_neg hlt] at hp
      exact hs p hp

/-- Claim C8.  `sendMessageWithRetry` fails immediately with zero network
attempts and zero delays when the model identifier is unset or the formatted
message list is empty, and whenever a network attempt is made its payload is
exactly the formatted message list. -/
theorem claim_C8_theorem (attempt : Nat → AttemptOutcome) (model : Str)
    (messages : List RawEntry) (maxRetries : Nat) :
    ((model = [] ∨ formatMessages messages = []) →
      (sendMessageWithRetry attempt model messages maxRetries).sent = [] ∧
      (sendMessageWithRetry attempt model messages maxRetries).delays = [] ∧
      ((sendMessageWithRetry attempt model messages maxRetries).result = .error .noModel ∨
       (sendMessageWithRetry attempt model messages maxRetries).result = .error .emptyMessages ∨
       (sendMessageWithRetry attempt model messages maxRetries).result = .error .emptyFormatted)) ∧
    ∀ p ∈ (sendMessageWithRetry attempt model messages maxRetries).sent,
      p = formatMessages messages := by
  constructor
  · intro hpre
    by_cases hmodel : model = []
    · unfold sendMessageWithRetry
      rw [if_pos hmodel]
      exact ⟨rfl, rfl, Or.inl rfl⟩
    · have hfmt : formatMessages messages = [] := hpre.resolve_left hmodel
      by_cases hmsgs : messages = []
      · unfold sendMessageWithRetry
        rw [if_neg hmodel, if_pos hmsgs]
        exact ⟨rfl, rfl, Or.inr (Or.inl rfl)⟩
      · unfold sendMessageWithRetry
        rw [if_neg hmodel, if_neg hmsgs, if_pos hfmt]
        exact ⟨rfl, rfl, Or.inr (Or.inr rfl)⟩
  · intro p hp
    unfold sendMessageWithRetry at hp
    by_cases hmodel : model = []
    · rw [if_pos hmodel] at hp
      cases hp
    · rw [if_neg hmodel] at hp
      by_cases hmsgs : messages = []
      · rw [if_pos hmsgs] at hp
        cases hp
      · rw [if_neg hmsgs] at hp
        by_cases hfmt : formatMessages messages = []
        · rw [if_pos hfmt] at hp
          cases hp
        · rw [if_neg hfmt] at hp
          exact sendMessageWithRetryLoop_sent attempt _ maxRetries maxRetries 0 [] []
            (by omega) (by intro q hq; cases hq) p hp

/-- Witness for claim C8: with the model identifier unset no attempt is made,
and in the successful concrete run of a well-formed request the payload of
every attempt is the formatted list. -/
theorem claim_C8_witness :
    ((sendMessageWithRetry (fun _ => .ok ⟨some "ok".toList, none⟩) []
        [RawEntry.entry (some "user".toList) (.str "hi".toList)] 3).sent = [] ∧
      (sendMessageWithRetry (fun _ => .ok ⟨some "ok".toList, none⟩) []
        [RawEntry.entry (some "user".toList) (.str "hi".toList)] 3).delays = [] ∧
      ((sendMessageWithRetry (fun _ => .ok ⟨some "ok".toList, none⟩) []
        [RawEntry.entry (some "user".toList) (.str "hi".toList)] 3).result =
          .error .noModel ∨
       (sendMessageWithRetry (fun _ => .ok ⟨some "ok".toList, none⟩) []
        [RawEntry.entry (some "user".toList) (.str "hi".toList)] 3).result =
          .error .emptyMessages ∨
       (sendMessageWithRetry (fun _ => .ok ⟨some "ok".toList, none⟩) []
        [RawEntry.entry (some "user".toList) (.str "hi".toList)] 3).result =
          .error .emptyFormatted)) :=
  (claim_C8_theorem (fun _ => .ok ⟨some "ok".toList, none⟩) []
    [RawEntry.entry (some "user".toList) (.str "hi".toList)] 3).1 (Or.inl rfl)

/-! ## Conversation persistence (src/unnamed/part_008 storage actions,
src/unnamed/part_010 `localStorageUtils`)

`localStorage` holds the `JSON.stringify` of the saved object;
`JSON.parse ∘ JSON.stringify` is the identity on JSON-serialisable values, so
storage is modelled as mapping each key to the stored JSON document tree. -/

/-- A JSON document tree. -/
inductive Json where
  | str (s : Str)
  | num (n : Int)
  | jbool (b : Bool)
  | null
  | arr (xs : List Json)
  | obj (fields : List (Str × Json))

/-- First-match field lookup in a JSON object. -/
def jlookup : List (Str × Json) → Str → Option Json
  | [], _ => none
  | (k, v) :: rest, key => if k = key then some v else jlookup rest key

/-- Serialised form of a `thinking` sub-record. -/
def encodeThinking (t : ThinkingContent) : Json :=
  .obj [("content".toList, .str t.content), ("isComplete".toList, .jbool t.isComplete),
        ("timestamp".toList, .num t.timestamp)]

/-- Serialised form of a `ChatMessage`; `JSON.stringify` omits the absent
optional `thinking` field. -/
def encodeMessage (m : ChatMessage) : Json :=
  .obj ([("id".toList, .str m.id), ("role".toList, .str m.role),
         ("content".toList, .str m.content), ("timestamp".toList, .num m.timestamp)] ++
    (match m.thinking with
     | none => []
     | some t => [("thinking".toList, encodeThinking t)]))

/-- One conversation's persisted metadata and messages (`ChatData`).  The
`settings` object does not take part in the round trip and is carried as an
opaque JSON value. -/
structure ChatData where
  id : Str
  title : Str
  messages : List ChatMessage
  createdAt : Str
  updatedAt : Str
  model : Str
  settings : Json

/-- Serialised form of a `ChatData` object, with its fields in source
order. -/
def encodeChatData (cd : ChatData) : Json :=
  .obj [("id".toList, .str cd.id), ("title".toList, .str cd.title),
        ("messages".toList, .arr (cd.messages.map encodeMessage)),
        ("createdAt".toList, .str cd.createdAt), ("updatedAt".toList, .str cd.updatedAt),
        ("model".toList, .str cd.model), ("settings".toList, cd.settings)]

/-- The browser `localStorage`, keyed by string, newest entry first. -/
def Storage := List (Str × Json)

/-- `localStorage.setItem`. -/
def setItem (st : Storage) (k : Str) (v : Json) : Storage := (k, v) :: st

/-- `localStorage.getItem`. -/
def getItem : Storage → Str → Option Json
  | [], _ => none
  | (k, v) :: rest, key => if k = key then some v else getItem rest key

/-- `localStorageUtils.saveChat`: store the serialised chat data under the
key. -/
def saveChat (st : Storage) (key : Str) (chatData : Json) : Storage :=
  setItem st key chatData

/-- `localStorageUtils.loadChat`: parse the stored document, `null` when the
key is absent. -/
def loadChat (st : Storage) (key : Str) : Option Json := getItem st key

/-- Conversations are namespaced per model: `chat_history_` + model. -/
def storageKey (model : Str) : Str := "chat_history_".toList ++ model

/-- `saveToStorage` of the storage actions (src/unnamed/part_008 lines 5-8). -/
def saveToStorage (st : Storage) (model : Str) (chatData : ChatData) : Storage :=
  saveChat st (storageKey model) (encodeChatData chatData)

/-- `loadConversationFromStorage` (src/unnamed/part_008 lines 60-75): a bare
array is taken as the message list; a wrapped object's `messages` array is
taken when present; anything else yields an empty conversation. -/
def loadConversationFromStorage (st : Storage) (model : Str) : List Json :=
  match loadChat st (storageKey model) with
  | none => []
  | some (.arr xs) => xs
  | some (.obj fields) =>
      match jlookup fields "messages".toList with
      | some (.arr xs) => xs
      | _ => []
  | some _ => []

/-- Reading a serialised `thinking` sub-record back. -/
def decodeThinking : Json → Option ThinkingContent
  | .obj fields =>
      match jlookup fields "content".toList, jlookup fields "isComplete".toList,
            jlookup fields "timestamp".toList with
      | some (.str c), some (.jbool b), some (.num t) => some ⟨c, b, t⟩
      | _, _, _ => none
  | _ => none

/-- Reading a serialised `ChatMessage` back. -/
def decodeMessage : Json → Option ChatMessage
  | .obj fields =>
      match jlookup fields "id".toList, jlookup fields "role".toList,
            jlookup fields "content".toList, jlookup fields "timestamp".toList with
      | some (.str i), some (.str r), some (.str c), some (.num t) =>
          (match jlookup fields "thinking".toList with
           | none => some ⟨i, r, c, t, none⟩
           | some tj =>
              match decodeThinking tj with
              | some th => some ⟨i, r, c, t, some th⟩
              | none => none)
      | _, _, _, _ => none
  | _ => none

theorem decode_encode_message (m : ChatMessage) :
    decodeMessage (encodeMessage m) = some m := by
  cases m with
  | mk i r c t th =>
    cases th with
    | none => simp [encodeMessage, decodeMessage, jlookup]
    | some tc => simp [encodeMessage, decodeMessage, jlookup, encodeThinking, decodeThinking]

theorem mapM_decode_encode (l : List ChatMessage) :
    (l.map encodeMessage).mapM decodeMessage = some l := by
  induction l with
  | nil => rfl
  | cons m rest ih =>
    rw [List.map_cons, List.mapM_cons, decode_encode_message, ih]
    rfl

/-- Claim C9.  Saving a conversation under a model key and loading that same
model key reproduces an equivalent ordered message list: the loader returns
exactly the serialised messages in order, and decoding them yields the
original messages with the same ids, roles, contents, timestamps, and
thinking sub-records. -/
theorem claim_C9_theorem (st : Storage) (model : Str) (cd : ChatData) :
    loadConversationFromStorage (saveToStorage st model cd) model =
      cd.messages.map encodeMessage ∧
    (cd.messages.map encodeMessage).mapM decodeMessage = some cd.messages := by
  constructor
  · simp [loadConversationFromStorage, saveToStorage, saveChat, loadChat, setItem,
      getItem, encodeChatData, jlookup]
  · exact mapM_decode_encode cd.messages
